import Mathlib

/-!
Shallow embedding of the seller-apis repository (src/seller.py and
src/market.py): the supplier-record transformers (`create_stocks`,
`create_prices`, `price_conversion`, `divide`), the paginated catalog
listers (`get_offer_ids`), and the two orchestrators (`main`).

Conventions of the embedding:
* Python dict rows of the supplier spreadsheet become the `Watch`
  structure; the Russian column keys map as `code` = "Код",
  `quantity` = "Количество", `price` = "Цена".  The sources always wrap
  reads in `str(...)`, so the fields are strings.
* Fallible Python code (the `int(...)` parses, HTTP calls, the paginated
  listers) is modelled with `Option` / explicit outcome types; a Python
  exception escaping a function is an `Option.none` or an error value.
* JSON payload values whose runtime type matters are modelled with
  `JVal`, which distinguishes a JSON string from a JSON integer.
* Network effects are modelled by passing in the would-be responses
  (`SellerWorld` / `MarketWorld`) and recording the issued calls as an
  `Event` trace.
-/

/-- Exceptions distinguished by the orchestrators' `except` clauses:
`requests.exceptions.ReadTimeout`, `requests.exceptions.ConnectionError`,
and everything else caught by the bare `except Exception`. -/
inductive PyExc where
  | readTimeout
  | connectionError (msg : String)
  | otherExc (msg : String)
deriving DecidableEq, Repr

/-- A JSON scalar as it is serialized onto the wire: either a JSON string
or a JSON number (integer).  Used for the `price` payload fields, whose
runtime type differs between the two marketplaces. -/
inductive JVal where
  | jstr (s : String)
  | jint (n : Int)
deriving DecidableEq, Repr

/-- Whether a `JVal` is a JSON integer. -/
def JVal.isInt : JVal → Bool
  | .jint _ => true
  | .jstr _ => false

/-- Value of a nonempty all-digit character list, `none` otherwise.
Helper for `str_to_int`. -/
def digitsCore (cs : List Char) : Option Nat :=
  if cs.isEmpty then none
  else if cs.all Char.isDigit then
    some (cs.foldl (fun n c => 10 * n + (c.toNat - 48)) 0)
  else none

/-- Python's `int(s)` on a string: an optional sign followed by digits;
any other shape raises `ValueError`, modelled as `none`.  (Python also
tolerates surrounding whitespace and `_` digit separators; those inputs
play no role in this repository's data and are modelled as `none`.) -/
def str_to_int (s : String) : Option Int :=
  match s.data with
  | [] => none
  | c :: cs =>
    if c = '-' then (digitsCore cs).map (fun n => -(n : Int))
    else if c = '+' then (digitsCore cs).map (fun n => (n : Int))
    else (digitsCore (c :: cs)).map (fun n => (n : Int))

/-- A supplier spreadsheet row (`watch_remnants` element): column "Код"
is `code`, "Количество" is `quantity`, "Цена" is `price`. -/
structure Watch where
  code : String
  quantity : String
  price : String
deriving DecidableEq, Repr

/-- The quantity translation implemented identically inside
`seller.create_stocks` and `market.create_stocks`:
`">10"` gives `100`, `"1"` gives `0`, anything else is
`int(watch.get("Количество"))` (which can raise, hence `Option`). -/
def convert_count (q : String) : Option Int :=
  if q = ">10" then some 100
  else if q = "1" then some 0
  else str_to_int q

/-- Python's `lst.remove(c)` on a list known to contain `c`: drops the
first occurrence of `c`, keeps everything else in order. -/
def removeFirst (ids : List String) (c : String) : List String :=
  match ids with
  | [] => []
  | x :: xs => if x = c then xs else x :: removeFirst xs c

/-- One issued API call or supplier download, for orchestrator traces. -/
inductive Event where
  | fetchOffers
  | download
  | stocksUpload (campaign : String) (size : Nat)
  | pricesUpload (campaign : String) (size : Nat)
deriving DecidableEq, Repr

/-- Whether an event is a price-update API call. -/
def Event.isPricesUpload : Event → Bool
  | .pricesUpload _ _ => true
  | _ => false

/-- How an orchestrator run ends: the `try` body finished, an exception
was caught and printed by one of the three `except` clauses, an
exception escaped `main` uncaught, or a pagination loop never saw its
end-of-list signal (the real loop would keep requesting forever). -/
inductive MainOutcome where
  | finished
  | logged (e : PyExc)
  | raised (e : PyExc)
  | hung
deriving DecidableEq, Repr

/-- Whether the run ended with an exception escaping `main`. -/
def MainOutcome.isRaised : MainOutcome → Bool
  | .raised _ => true
  | _ => false

/-- Whether a modelled HTTP/download response is an exception. -/
def exceptFailed {α : Type} : Except PyExc α → Bool
  | .error _ => true
  | .ok _ => false

/-- Result of a paginated `get_offer_ids` run: the collected ids, a
propagated request exception, or `hung` when the modelled response
sequence is exhausted before the end-of-list signal (the real `while
True` loop would keep going). -/
inductive FetchOutcome where
  | ok (offer_ids : List String)
  | err (e : PyExc)
  | hung
deriving DecidableEq, Repr

/-- The chunk-upload loops `for some_x in list(divide(xs, n)): update_x(...)`:
issues one call per chunk, sequentially; the `i`-th call's outcome comes
from `resp i`; an exception stops the loop.  Returns the trace of issued
calls (tagged by `mk` with the chunk size) and the first error, if any. -/
def uploadChunks {α : Type} (resp : Nat → Except PyExc Unit) (mk : Nat → Event) :
    Nat → List (List α) → List Event × Except PyExc Unit
  | _, [] => ([], .ok ())
  | i, c :: cs =>
    match resp i with
    | .error e => ([mk c.length], .error e)
    | .ok _ =>
      let r := uploadChunks resp mk (i + 1) cs
      (mk c.length :: r.1, r.2)

namespace Seller

/-- One element of an Ozon `product/list` response's `items`. -/
structure SProduct where
  offer_id : String
deriving DecidableEq, Repr

/-- One Ozon `product/list` response (`result` object): its `items`,
the reported `total`, and the continuation cursor `last_id`. -/
structure SellerPage where
  items : List SProduct
  total : Nat
  last_id : String
deriving DecidableEq, Repr

/-- The `while True` loop of `seller.get_offer_ids`, with the successive
`get_product_list` responses given as a list (the cursor threading is
deterministic, so the k-th request's response is the k-th list element).
Extends the accumulator with the page's items and stops as soon as the
reported `total` equals the accumulated length; a response exception
propagates; running out of modelled responses without the signal is
`hung`. -/
def get_offer_idsAux : List (Except PyExc SellerPage) → List SProduct → FetchOutcome
  | [], _ => .hung
  | .error e :: _, _ => .err e
  | .ok p :: rest, acc =>
    let acc2 := acc ++ p.items
    if p.total = acc2.length then .ok (acc2.map SProduct.offer_id)
    else get_offer_idsAux rest acc2

/-- `seller.get_offer_ids`: paginate, then collect each product's
`offer_id`. -/
def get_offer_ids (resps : List (Except PyExc SellerPage)) : FetchOutcome :=
  get_offer_idsAux resps []

/-- An element of the `stocks` payload list built by
`seller.create_stocks`: `{"offer_id": ..., "stock": ...}`. -/
structure StockRec where
  offer_id : String
  stock : Int
deriving DecidableEq, Repr

/-- The first loop of `seller.create_stocks` over `watch_remnants`,
carried out with an explicit accumulator: a row whose `code` is in the
current `offer_ids` list appends `{"offer_id": code, "stock": stock}`
and removes that id (first occurrence) from the list; the `int(...)`
parse of an unrecognized quantity can raise, collapsing the whole call
to `none`.  The second loop then appends a zero-stock record for every
id still in the list, which is also returned (the Python function
mutates its `offer_ids` argument in place; the embedding returns the
mutated list). -/
def create_stocksAux : List Watch → List String → List StockRec →
    Option (List StockRec × List String)
  | [], ids, acc => some (acc ++ ids.map (fun id => ⟨id, 0⟩), ids)
  | w :: rest, ids, acc =>
    if w.code ∈ ids then
      match convert_count w.quantity with
      | none => none
      | some st => create_stocksAux rest (removeFirst ids w.code) (acc ++ [⟨w.code, st⟩])
    else create_stocksAux rest ids acc

/-- `seller.create_stocks`: returns the stock-update list together with
the mutated `offer_ids` list. -/
def create_stocks (watch_remnants : List Watch) (offer_ids : List String) :
    Option (List StockRec × List String) :=
  create_stocksAux watch_remnants offer_ids []

/-- `seller.price_conversion`: `price.split(".")[0]` is the longest
prefix before the first `.`; `re.sub("[^0-9]", "", _)` keeps only the
ASCII digits. -/
def price_conversion (price : String) : String :=
  String.mk ((price.data.takeWhile (fun c => c != '.')).filter (fun c => c.isDigit))

/-- An element of the `prices` payload list built by
`seller.create_prices`, fields in source order.  The `price` value is
the *string* returned by `price_conversion`, serialized as a JSON
string. -/
structure PriceRec where
  auto_action_enabled : String
  currency_code : String
  offer_id : String
  old_price : String
  price : JVal
deriving DecidableEq, Repr

/-- `seller.create_prices`: one record per supplier row whose `code` is
in `offer_ids` (the list is read, never mutated here). -/
def create_prices (watch_remnants : List Watch) (offer_ids : List String) :
    List PriceRec :=
  match watch_remnants with
  | [] => []
  | w :: rest =>
    if w.code ∈ offer_ids then
      ⟨"UNKNOWN", "RUB", w.code, "0", .jstr (price_conversion w.price)⟩ ::
        create_prices rest offer_ids
    else create_prices rest offer_ids

/-- Fuel-indexed body of `seller.divide`; the fuel is an upper bound on
the number of chunks (`lst.length` suffices for `n > 0`), making the
recursion structural so that terms evaluate inside the kernel. -/
def divideAux {α : Type} : Nat → List α → Nat → List (List α)
  | 0, _, _ => []
  | _ + 1, [], _ => []
  | fuel + 1, lst@(_ :: _), n =>
    if n = 0 then [] else lst.take n :: divideAux fuel (lst.drop n) n

/-- `seller.divide`: the chunks `lst[i : i + n]` for
`i in range(0, len(lst), n)`.  For `n = 0` Python's `range` raises
`ValueError` before yielding anything; that case is modelled as no
chunks and is outside every claim (all call sites pass positive
constants). -/
def divide {α : Type} (lst : List α) (n : Nat) : List (List α) :=
  divideAux lst.length lst n

/-- The modelled outside world for `seller.main`: the Ozon identifiers
read from the environment, the paginated `product/list` responses, the
supplier download outcome, and the outcome of the i-th stock / price
upload call. -/
structure SellerWorld where
  client_id : String
  offerResps : List (Except PyExc SellerPage)
  downloadResp : Except PyExc (List Watch)
  stockCallResp : Nat → Except PyExc Unit
  priceCallResp : Nat → Except PyExc Unit

/-- `seller.main`: inside one `try`, fetch the offer ids, download the
supplier file, build and chunk-upload the stocks (chunks of 100), build
and chunk-upload the prices (chunks of 900).  The three `except`
clauses catch `ReadTimeout`, `ConnectionError` and `Exception`, print,
and fall off the end of `main` (outcome `logged`); a failed `int(...)`
parse in `create_stocks` is a `ValueError`, also caught by the bare
`except Exception`. -/
def main (w : SellerWorld) : List Event × MainOutcome :=
  match get_offer_ids w.offerResps with
  | .hung => ([.fetchOffers], .hung)
  | .err e => ([.fetchOffers], .logged e)
  | .ok ids =>
    match w.downloadResp with
    | .error e => ([.fetchOffers, .download], .logged e)
    | .ok remnants =>
      match create_stocks remnants ids with
      | none => ([.fetchOffers, .download], .logged (.otherExc "ValueError"))
      | some (stocks, ids2) =>
        let su := uploadChunks w.stockCallResp (Event.stocksUpload w.client_id) 0
          (divide stocks 100)
        match su.2 with
        | .error e => ([.fetchOffers, .download] ++ su.1, .logged e)
        | .ok _ =>
          let prices := create_prices remnants ids2
          let pu := uploadChunks w.priceCallResp (Event.pricesUpload w.client_id) 0
            (divide prices 900)
          ([.fetchOffers, .download] ++ su.1 ++ pu.1,
            match pu.2 with
            | .error e => .logged e
            | .ok _ => .finished)

end Seller

namespace Market

/-- One `offerMappingEntries` element of a Yandex Market
`offer-mapping-entries` response; only `offer.shopSku` is read. -/
structure MEntry where
  shopSku : String
deriving DecidableEq, Repr

/-- One Yandex Market `offer-mapping-entries` response (`result`
object): its entries and `paging.nextPageToken`.  A missing / `None`
token is modelled as the empty string (both are falsy in the
`if not page` test). -/
structure MarketPage where
  offerMappingEntries : List MEntry
  nextPageToken : String
deriving DecidableEq, Repr

/-- The `while True` loop of `market.get_offer_ids`, with the successive
`get_product_list` responses given as a list: extends the accumulator
with the page's entries and stops as soon as the next-page token is
empty; a response exception propagates; running out of modelled
responses without an empty token is `hung`. -/
def get_offer_idsAux : List (Except PyExc MarketPage) → List MEntry → FetchOutcome
  | [], _ => .hung
  | .error e :: _, _ => .err e
  | .ok p :: rest, acc =>
    let acc2 := acc ++ p.offerMappingEntries
    if p.nextPageToken = "" then .ok (acc2.map MEntry.shopSku)
    else get_offer_idsAux rest acc2

/-- `market.get_offer_ids`: paginate, then collect each entry's
`offer.shopSku`. -/
def get_offer_ids (resps : List (Except PyExc MarketPage)) : FetchOutcome :=
  get_offer_idsAux resps []

/-- One element of a stock record's `items` list:
`{"count": ..., "type": "FIT", "updatedAt": date}`. -/
structure StockItem where
  count : Int
  type : String
  updatedAt : String
deriving DecidableEq, Repr

/-- An element of the `stocks` payload list built by
`market.create_stocks`: `{"sku": ..., "warehouseId": ..., "items": [...]}`. -/
structure StockRec where
  sku : String
  warehouseId : String
  items : List StockItem
deriving DecidableEq, Repr

/-- The loops of `market.create_stocks`, with an explicit accumulator;
same matching/removal logic as the seller version, but the emitted
records carry the warehouse id and a single-item `items` list.  `date`
is the `datetime.datetime.utcnow()...` timestamp the function computes
once before the loop, passed here as an argument. -/
def create_stocksAux (warehouse_id date : String) : List Watch → List String →
    List StockRec → Option (List StockRec × List String)
  | [], ids, acc =>
    some (acc ++ ids.map (fun id => ⟨id, warehouse_id, [⟨0, "FIT", date⟩]⟩), ids)
  | w :: rest, ids, acc =>
    if w.code ∈ ids then
      match convert_count w.quantity with
      | none => none
      | some st =>
        create_stocksAux warehouse_id date rest (removeFirst ids w.code)
          (acc ++ [⟨w.code, warehouse_id, [⟨st, "FIT", date⟩]⟩])
    else create_stocksAux warehouse_id date rest ids acc

/-- `market.create_stocks`: returns the stock-update list together with
the mutated `offer_ids` list. -/
def create_stocks (watch_remnants : List Watch) (offer_ids : List String)
    (warehouse_id date : String) : Option (List StockRec × List String) :=
  create_stocksAux warehouse_id date watch_remnants offer_ids []

/-- The nested `price` object of a Yandex price record:
`{"value": int(price_conversion(...)), "currencyId": "RUR"}`.  The
`value` is a JSON integer. -/
structure PriceBody where
  value : JVal
  currencyId : String
deriving DecidableEq, Repr

/-- An element of the `prices` payload list built by
`market.create_prices`: `{"id": ..., "price": {...}}`. -/
structure PriceRec where
  id : String
  price : PriceBody
deriving DecidableEq, Repr

/-- `market.create_prices`: one record per supplier row whose `code` is
in `offer_ids` (the list is read, never mutated); the
`int(price_conversion(...))` parse raises `ValueError` when the digit
string is empty, collapsing the call to `none`. -/
def create_prices (watch_remnants : List Watch) (offer_ids : List String) :
    Option (List PriceRec) :=
  match watch_remnants with
  | [] => some []
  | w :: rest =>
    if w.code ∈ offer_ids then
      match str_to_int (Seller.price_conversion w.price) with
      | none => none
      | some n =>
        (create_prices rest offer_ids).map
          (fun ps => ⟨w.code, ⟨.jint n, "RUR"⟩⟩ :: ps)
    else create_prices rest offer_ids

/-- How one campaign block inside `market.main`'s `try` ends. -/
inductive BodyRes where
  | done
  | failed (e : PyExc)
  | hung
deriving DecidableEq, Repr

/-- One campaign block of `market.main` (the FBS and DBS blocks are
line-for-line identical up to the identifiers): fetch the campaign's
offer ids, build the stocks, chunk-upload them (chunks of 2000).  The
closing `upload_prices(watch_remnants, campaign_id, market_token)` line
calls an `async def` without awaiting it: it only creates a coroutine
object that is never run, so it issues no request and raises nothing —
it contributes nothing to the trace. -/
def syncCampaign (remnants : List Watch) (offerResps : List (Except PyExc MarketPage))
    (stockCallResp : Nat → Except PyExc Unit) (campaign_id warehouse_id date : String) :
    List Event × BodyRes :=
  match get_offer_ids offerResps with
  | .hung => ([.fetchOffers], .hung)
  | .err e => ([.fetchOffers], .failed e)
  | .ok ids =>
    match create_stocks remnants ids warehouse_id date with
    | none => ([.fetchOffers], .failed (.otherExc "ValueError"))
    | some (stocks, _) =>
      let su := uploadChunks stockCallResp (Event.stocksUpload campaign_id) 0
        (Seller.divide stocks 2000)
      match su.2 with
      | .error e => (.fetchOffers :: su.1, .failed e)
      | .ok _ => (.fetchOffers :: su.1, .done)

/-- The modelled outside world for `market.main`: the identifiers read
from the environment, the supplier download outcome, and per-campaign
paginated listing responses and stock-upload call outcomes, plus the
timestamp used by `create_stocks`. -/
structure MarketWorld where
  campaign_fbs_id : String
  campaign_dbs_id : String
  warehouse_fbs_id : String
  warehouse_dbs_id : String
  date : String
  downloadResp : Except PyExc (List Watch)
  fbsOfferResps : List (Except PyExc MarketPage)
  dbsOfferResps : List (Except PyExc MarketPage)
  fbsStockCallResp : Nat → Except PyExc Unit
  dbsStockCallResp : Nat → Except PyExc Unit

/-- `market.main`: `download_stock()` runs *before* the `try` block, so
an exception there escapes `main` (outcome `raised`).  Inside the
`try`, the FBS block runs, then the DBS block; any exception there is
caught by one of the three `except` clauses and printed (outcome
`logged`).  The two un-awaited `upload_prices` calls do nothing (see
`syncCampaign`). -/
def main (w : MarketWorld) : List Event × MainOutcome :=
  match w.downloadResp with
  | .error e => ([.download], .raised e)
  | .ok remnants =>
    let fbs := syncCampaign remnants w.fbsOfferResps w.fbsStockCallResp
      w.campaign_fbs_id w.warehouse_fbs_id w.date
    match fbs.2 with
    | .hung => (.download :: fbs.1, .hung)
    | .failed e => (.download :: fbs.1, .logged e)
    | .done =>
      let dbs := syncCampaign remnants w.dbsOfferResps w.dbsStockCallResp
        w.campaign_dbs_id w.warehouse_dbs_id w.date
      (.download :: fbs.1 ++ dbs.1,
        match dbs.2 with
        | .hung => .hung
        | .failed e => .logged e
        | .done => .finished)

end Market

/-- Spec-side view of the mutated offer-id list: the ids matched by no
supplier record's code, in their original order. -/
def unmatchedIds (ws : List Watch) (ids : List String) : List String :=
  ids.filter (fun id => !(ws.any (fun w => w.code == id)))

/-- The seller pagination end-signal of claim C8: the server reports an
accumulated-count-equals-total signal exactly at the last served page
(given `n` items accumulated before these pages) and at no earlier
page. -/
def sellerEndAtLast : List Seller.SellerPage → Nat → Bool
  | [], _ => false
  | [p], n => p.total == n + p.items.length
  | p :: q :: rest, n =>
    (p.total != n + p.items.length) && sellerEndAtLast (q :: rest) (n + p.items.length)

/-- No seller page in the list carries the end-of-list signal. -/
def sellerNoSignal : List Seller.SellerPage → Nat → Bool
  | [], _ => true
  | p :: rest, n => (p.total != n + p.items.length) && sellerNoSignal rest (n + p.items.length)

/-- The market pagination end-signal of claim C8: exactly the last
served page has an empty `nextPageToken`. -/
def marketEndAtLast : List Market.MarketPage → Bool
  | [] => false
  | [p] => p.nextPageToken == ""
  | p :: q :: rest => (p.nextPageToken != "") && marketEndAtLast (q :: rest)

/-- No market page in the list has an empty `nextPageToken`. -/
def marketNoSignal : List Market.MarketPage → Bool
  | [] => true
  | p :: rest => (p.nextPageToken != "") && marketNoSignal rest

/-- Packaging of a seller stock record as the corresponding market
stock record (warehouse id and timestamp fixed): the two `create_stocks`
loops differ only by this per-record reshaping. -/
def mconv (warehouse_id date : String) (r : Seller.StockRec) : Market.StockRec :=
  ⟨r.offer_id, warehouse_id, [⟨r.stock, "FIT", date⟩]⟩

/-- Concrete world for evaluating `market.main`: one supplier row
matching the single known offer id of each campaign, every HTTP call
succeeding. -/
def mw6 : Market.MarketWorld where
  campaign_fbs_id := "FBS"
  campaign_dbs_id := "DBS"
  warehouse_fbs_id := "WF"
  warehouse_dbs_id := "WD"
  date := "2024-01-01T00:00:00Z"
  downloadResp := .ok [⟨"A1", ">10", "5990.00"⟩]
  fbsOfferResps := [.ok ⟨[⟨"A1"⟩], ""⟩]
  dbsOfferResps := [.ok ⟨[⟨"A1"⟩], ""⟩]
  fbsStockCallResp := fun _ => .ok ()
  dbsStockCallResp := fun _ => .ok ()

/-- Concrete world for `market.main` in which the supplier download
raises a read timeout and everything else would succeed. -/
def mw7 : Market.MarketWorld where
  campaign_fbs_id := "FBS"
  campaign_dbs_id := "DBS"
  warehouse_fbs_id := "WF"
  warehouse_dbs_id := "WD"
  date := "2024-01-01T00:00:00Z"
  downloadResp := .error .readTimeout
  fbsOfferResps := [.ok ⟨[⟨"A1"⟩], ""⟩]
  dbsOfferResps := [.ok ⟨[⟨"A1"⟩], ""⟩]
  fbsStockCallResp := fun _ => .ok ()
  dbsStockCallResp := fun _ => .ok ()

/-- Concrete world for `seller.main`: one catalog page listing two offer
ids, one matching supplier row, every call succeeding. -/
def sw10 : Seller.SellerWorld where
  client_id := "CID"
  offerResps := [.ok ⟨[⟨"A1"⟩, ⟨"B2"⟩], 2, "x"⟩]
  downloadResp := .ok [⟨"A1", ">10", "5990.00"⟩]
  stockCallResp := fun _ => .ok ()
  priceCallResp := fun _ => .ok ()

/-- The string `"5'990.00 руб."` from the `price_conversion` docstring
(the apostrophe is `Char.ofNat 39`). -/
def sampleRubPrice : String :=
  String.mk ['5', Char.ofNat 39, '9', '9', '0', '.', '0', '0', ' ', 'р', 'у', 'б', '.']

/-! ### Helper lemmas -/

theorem beq_comm_str (a b : String) : (a == b) = (b == a) := by
  by_cases h : a = b
  · subst h; rfl
  · have h2 : ¬b = a := fun hba => h hba.symm
    simp [h, h2]

theorem removeFirst_eq_filter {l : List String} (a : String) (h : l.Nodup) :
    removeFirst l a = l.filter (fun x => x != a) := by
  induction l with
  | nil => rfl
  | cons x xs ih =>
    rcases List.nodup_cons.mp h with ⟨hx, hxs⟩
    by_cases hxa : x = a
    · subst hxa
      have h1 : removeFirst (x :: xs) x = xs := by rw [removeFirst, if_pos rfl]
      have h2 : List.filter (fun y => y != x) (x :: xs) = xs := by
        rw [List.filter_cons_of_neg (by simp), List.filter_eq_self.mpr]
        intro b hb
        simp only [bne_iff_ne, ne_eq]
        exact fun hbx => hx (hbx ▸ hb)
      rw [h1, h2]
    · have h1 : removeFirst (x :: xs) a = x :: removeFirst xs a := by
        rw [removeFirst, if_neg hxa]
      rw [h1, List.filter_cons_of_pos (by simp [hxa]), ih hxs]

theorem mem_removeFirst_of_ne {l : List String} {a b : String} (h : b ≠ a) :
    b ∈ removeFirst l a ↔ b ∈ l := by
  induction l with
  | nil => simp [removeFirst]
  | cons x xs ih =>
    by_cases hxa : x = a
    · subst hxa
      simp only [removeFirst, if_pos rfl, List.mem_cons]
      constructor
      · exact fun hb => Or.inr hb
      · rintro (rfl | hb)
        · exact absurd rfl h
        · exact hb
    · simp only [removeFirst, if_neg hxa, List.mem_cons, ih]

theorem removeFirst_subset {l : List String} (a : String) : removeFirst l a ⊆ l := by
  induction l with
  | nil => simp [removeFirst]
  | cons x xs ih =>
    by_cases hxa : x = a
    · subst hxa
      simp only [removeFirst, if_pos rfl]
      exact List.subset_cons_self x xs
    · simp only [removeFirst, if_neg hxa]
      exact List.cons_subset_cons x ih

theorem nodup_removeFirst {l : List String} (a : String) (h : l.Nodup) :
    (removeFirst l a).Nodup := by
  rw [removeFirst_eq_filter a h]
  exact h.filter _

theorem countP_eq_one_unique {α : Type} (p : α → Bool) :
    ∀ l : List α, l.countP p = 1 → ∀ a b, a ∈ l → b ∈ l → p a = true → p b = true → b = a := by
  intro l
  induction l with
  | nil => intro h a b ha; cases ha
  | cons x xs ih =>
    intro h a b ha hb hpa hpb
    by_cases hpx : p x = true
    · rw [List.countP_cons_of_pos _ _ hpx] at h
      have hzero : xs.countP p = 0 := by omega
      have hnone : ∀ y ∈ xs, ¬p y = true := List.countP_eq_zero.mp hzero
      have ha2 : a = x := by
        rcases List.mem_cons.mp ha with rfl | ha3
        · rfl
        · exact absurd hpa (hnone a ha3)
      have hb2 : b = x := by
        rcases List.mem_cons.mp hb with rfl | hb3
        · rfl
        · exact absurd hpb (hnone b hb3)
      rw [ha2, hb2]
    · rw [List.countP_cons_of_neg _ _ hpx] at h
      have ha2 : a ∈ xs := by
        rcases List.mem_cons.mp ha with rfl | ha3
        · exact absurd hpa hpx
        · exact ha3
      have hb2 : b ∈ xs := by
        rcases List.mem_cons.mp hb with rfl | hb3
        · exact absurd hpb hpx
        · exact hb3
      exact ih h a b ha2 hb2 hpa hpb

theorem countP_beq_of_nodup (id : String) (ids : List String) (hnd : ids.Nodup)
    (hm : id ∈ ids) : ids.countP (fun i => i == id) = 1 := by
  induction ids with
  | nil => cases hm
  | cons x xs ih =>
    rcases List.nodup_cons.mp hnd with ⟨hx, hxs⟩
    rcases List.mem_cons.mp hm with rfl | hm2
    · rw [List.countP_cons_of_pos _ _ (by simp)]
      have hz : xs.countP (fun i => i == id) = 0 := by
        apply List.countP_eq_zero.mpr
        intro a ha
        simp only [beq_iff_eq]
        exact fun hai => hx (hai ▸ ha)
      omega
    · have hx2 : (x == id) = false := by
        simp only [beq_eq_false_iff_ne, ne_eq]
        exact fun hxe => hx (hxe ▸ hm2)
      simp [List.countP_cons, hx2, ih hxs hm2]

theorem seller_rem_eq (ws : List Watch) : ∀ (ids : List String)
    (acc st : List Seller.StockRec) (rem : List String), ids.Nodup →
    Seller.create_stocksAux ws ids acc = some (st, rem) → rem = unmatchedIds ws ids := by
  induction ws with
  | nil =>
    intro ids acc st rem _ h
    simp only [Seller.create_stocksAux] at h
    have h2 := Option.some.inj h
    have hrem : ids = rem := congrArg Prod.snd h2
    rw [← hrem]
    simp [unmatchedIds]
  | cons w rest ih =>
    intro ids acc st rem hnd h
    simp only [Seller.create_stocksAux] at h
    by_cases hc : w.code ∈ ids
    · rw [if_pos hc] at h
      rcases hcv : convert_count w.quantity with _ | stv
      · rw [hcv] at h; exact absurd h (by simp)
      · rw [hcv] at h
        have hrec := ih (removeFirst ids w.code) (acc ++ [⟨w.code, stv⟩]) st rem
          (nodup_removeFirst _ hnd) h
        rw [hrec, unmatchedIds, unmatchedIds, removeFirst_eq_filter _ hnd,
          List.filter_filter]
        apply List.filter_congr
        intro x _
        by_cases hwx : w.code = x
        · subst hwx
          simp
        · have hxw : x ≠ w.code := fun hh => hwx hh.symm
          have h1 : (w.code == x) = false := by simp [hwx]
          have h2 : (x != w.code) = true := by simp [hxw]
          simp [List.any_cons, h1, h2]
    · rw [if_neg hc] at h
      have hrec := ih ids acc st rem hnd h
      rw [hrec, unmatchedIds, unmatchedIds]
      apply List.filter_congr
      intro x hx
      have hwx : (w.code == x) = false := by
        simp only [beq_eq_false_iff_ne, ne_eq]
        exact fun hh => hc (hh ▸ hx)
      simp [List.any_cons, hwx]

theorem seller_count_notmem (id : String) (ws : List Watch) : ∀ (ids : List String)
    (acc st : List Seller.StockRec) (rem : List String), id ∉ ids →
    Seller.create_stocksAux ws ids acc = some (st, rem) →
    st.countP (fun r => r.offer_id == id) = acc.countP (fun r => r.offer_id == id) := by
  induction ws with
  | nil =>
    intro ids acc st rem hid h
    simp only [Seller.create_stocksAux] at h
    have h2 := Option.some.inj h
    have hst : acc ++ ids.map (fun i => (⟨i, 0⟩ : Seller.StockRec)) = st :=
      congrArg Prod.fst h2
    rw [← hst, List.countP_append, List.countP_map]
    have hz : ids.countP ((fun r => r.offer_id == id) ∘ (fun i => (⟨i, 0⟩ : Seller.StockRec))) = 0 := by
      apply List.countP_eq_zero.mpr
      intro a ha
      simp only [Function.comp_apply, beq_iff_eq]
      exact fun hai => hid (hai ▸ ha)
    rw [hz]
    omega
  | cons w rest ih =>
    intro ids acc st rem hid h
    simp only [Seller.create_stocksAux] at h
    by_cases hc : w.code ∈ ids
    · rw [if_pos hc] at h
      rcases hcv : convert_count w.quantity with _ | stv
      · rw [hcv] at h; exact absurd h (by simp)
      · rw [hcv] at h
        have hid2 : id ∉ removeFirst ids w.code := fun hmem => hid (removeFirst_subset _ hmem)
        rw [ih _ _ _ _ hid2 h, List.countP_append]
        have hwne : (Watch.code w == id) = false := by
          simp only [beq_eq_false_iff_ne, ne_eq]
          exact fun he => hid (he ▸ hc)
        simp [hwne]
    · rw [if_neg hc] at h
      exact ih _ _ _ _ hid h

theorem seller_count_mem (id : String) (ws : List Watch) : ∀ (ids : List String)
    (acc st : List Seller.StockRec) (rem : List String), ids.Nodup → id ∈ ids →
    Seller.create_stocksAux ws ids acc = some (st, rem) →
    st.countP (fun r => r.offer_id == id) = acc.countP (fun r => r.offer_id == id) + 1 := by
  induction ws with
  | nil =>
    intro ids acc st rem hnd hid h
    simp only [Seller.create_stocksAux] at h
    have h2 := Option.some.inj h
    have hst : acc ++ ids.map (fun i => (⟨i, 0⟩ : Seller.StockRec)) = st :=
      congrArg Prod.fst h2
    rw [← hst, List.countP_append, List.countP_map]
    have hone : ids.countP ((fun r => r.offer_id == id) ∘ (fun i => (⟨i, 0⟩ : Seller.StockRec))) = 1 := by
      have : ((fun r => r.offer_id == id) ∘ (fun i => (⟨i, 0⟩ : Seller.StockRec))) =
          (fun i => i == id) := rfl
      rw [this]
      exact countP_beq_of_nodup id ids hnd hid
    rw [hone]
  | cons w rest ih =>
    intro ids acc st rem hnd hid h
    simp only [Seller.create_stocksAux] at h
    by_cases hc : w.code ∈ ids
    · rw [if_pos hc] at h
      rcases hcv : convert_count w.quantity with _ | stv
      · rw [hcv] at h; exact absurd h (by simp)
      · rw [hcv] at h
        by_cases hwid : w.code = id
        · subst hwid
          have hid2 : w.code ∉ removeFirst ids w.code := by
            rw [removeFirst_eq_filter _ hnd]
            intro hmem
            have := List.of_mem_filter hmem
            simp at this
          rw [seller_count_notmem _ _ _ _ _ _ hid2 h, List.countP_append]
          simp
        · have hid2 : id ∈ removeFirst ids w.code :=
            (mem_removeFirst_of_ne (fun hh => hwid hh.symm)).mpr hid
          rw [ih _ _ _ _ (nodup_removeFirst _ hnd) hid2 h, List.countP_append]
          have hwne : (Watch.code w == id) = false := by simp [hwid]
          simp [hwne]
    · rw [if_neg hc] at h
      exact ih _ _ _ _ hnd hid h

theorem seller_shape (ws : List Watch) : ∀ (ids : List String)
    (acc st : List Seller.StockRec) (rem : List String),
    Seller.create_stocksAux ws ids acc = some (st, rem) →
    ∃ mid, st = acc ++ mid ++ rem.map (fun id => (⟨id, 0⟩ : Seller.StockRec)) := by
  induction ws with
  | nil =>
    intro ids acc st rem h
    simp only [Seller.create_stocksAux] at h
    have h2 := Option.some.inj h
    have hst : acc ++ ids.map (fun i => (⟨i, 0⟩ : Seller.StockRec)) = st :=
      congrArg Prod.fst h2
    have hrem : ids = rem := congrArg Prod.snd h2
    exact ⟨[], by rw [← hst, ← hrem]; simp⟩
  | cons w rest ih =>
    intro ids acc st rem h
    simp only [Seller.create_stocksAux] at h
    by_cases hc : w.code ∈ ids
    · rw [if_pos hc] at h
      rcases hcv : convert_count w.quantity with _ | stv
      · rw [hcv] at h; exact absurd h (by simp)
      · rw [hcv] at h
        obtain ⟨mid, hmid⟩ := ih _ _ _ _ h
        exact ⟨⟨w.code, stv⟩ :: mid, by rw [hmid]; simp⟩
    · rw [if_neg hc] at h
      exact ih _ _ _ _ h

theorem seller_first_emit (w : Watch) : ∀ (ws1 ws2 : List Watch) (ids : List String)
    (acc st : List Seller.StockRec) (rem : List String), ids.Nodup →
    ws1.all (fun x => x.code != w.code) = true → w.code ∈ ids →
    Seller.create_stocksAux (ws1 ++ w :: ws2) ids acc = some (st, rem) →
    ∃ c, convert_count w.quantity = some c ∧ (⟨w.code, c⟩ : Seller.StockRec) ∈ st := by
  intro ws1
  induction ws1 with
  | nil =>
    intro ws2 ids acc st rem _ _ hc h
    simp only [List.nil_append, Seller.create_stocksAux] at h
    rw [if_pos hc] at h
    rcases hcv : convert_count w.quantity with _ | stv
    · rw [hcv] at h; exact absurd h (by simp)
    · rw [hcv] at h
      obtain ⟨mid, hmid⟩ := seller_shape _ _ _ _ _ h
      refine ⟨stv, rfl, ?_⟩
      rw [hmid]
      simp
  | cons x rest ih =>
    intro ws2 ids acc st rem hnd hall hc h
    have hall2 : (x.code != w.code) = true ∧ rest.all (fun y => y.code != w.code) = true := by
      simpa [List.all_cons] using hall
    have hxw : x.code ≠ w.code := by simpa using hall2.1
    simp only [List.cons_append, Seller.create_stocksAux] at h
    by_cases hcx : x.code ∈ ids
    · rw [if_pos hcx] at h
      rcases hcv : convert_count x.quantity with _ | stv
      · rw [hcv] at h; exact absurd h (by simp)
      · rw [hcv] at h
        have hcw2 : w.code ∈ removeFirst ids x.code :=
          (mem_removeFirst_of_ne (fun hh => hxw hh.symm)).mpr hc
        exact ih ws2 _ _ _ _ (nodup_removeFirst _ hnd) hall2.2 hcw2 h
    · rw [if_neg hcx] at h
      exact ih ws2 _ _ _ _ hnd hall2.2 hc h

theorem market_sim (wh date : String) (ws : List Watch) : ∀ (ids : List String)
    (acc : List Seller.StockRec),
    Market.create_stocksAux wh date ws ids (acc.map (mconv wh date)) =
      (Seller.create_stocksAux ws ids acc).map
        (fun p => (p.1.map (mconv wh date), p.2)) := by
  induction ws with
  | nil =>
    intro ids acc
    simp [Market.create_stocksAux, Seller.create_stocksAux, mconv, List.map_append,
      List.map_map, Function.comp]
  | cons w rest ih =>
    intro ids acc
    simp only [Market.create_stocksAux, Seller.create_stocksAux]
    by_cases hc : w.code ∈ ids
    · rw [if_pos hc, if_pos hc]
      rcases hcv : convert_count w.quantity with _ | stv
      · simp
      · have heq : acc.map (mconv wh date) ++
            [(⟨w.code, wh, [⟨stv, "FIT", date⟩]⟩ : Market.StockRec)] =
            (acc ++ [(⟨w.code, stv⟩ : Seller.StockRec)]).map (mconv wh date) := by
          simp [mconv]
        show Market.create_stocksAux wh date rest (removeFirst ids w.code)
            (acc.map (mconv wh date) ++
              [(⟨w.code, wh, [⟨stv, "FIT", date⟩]⟩ : Market.StockRec)]) =
          Option.map (fun p => (p.1.map (mconv wh date), p.2))
            (Seller.create_stocksAux rest (removeFirst ids w.code)
              (acc ++ [(⟨w.code, stv⟩ : Seller.StockRec)]))
        rw [heq]
        exact ih (removeFirst ids w.code) (acc ++ [⟨w.code, stv⟩])
    · rw [if_neg hc, if_neg hc]
      exact ih ids acc

theorem market_create_stocks_eq (wh date : String) (ws : List Watch) (ids : List String) :
    Market.create_stocks ws ids wh date =
      (Seller.create_stocks ws ids).map (fun p => (p.1.map (mconv wh date), p.2)) := by
  have h := market_sim wh date ws ids []
  simpa [Market.create_stocks, Seller.create_stocks] using h

theorem seller_prices_mem (w : Watch) (ws : List Watch) (ids : List String) :
    w ∈ ws → w.code ∈ ids →
    (⟨"UNKNOWN", "RUB", w.code, "0", .jstr (Seller.price_conversion w.price)⟩ :
      Seller.PriceRec) ∈ Seller.create_prices ws ids := by
  induction ws with
  | nil => intro h; cases h
  | cons x rest ih =>
    intro hw hc
    simp only [Seller.create_prices]
    rcases List.mem_cons.mp hw with rfl | hw2
    · rw [if_pos hc]
      exact List.mem_cons_self _ _
    · by_cases hcx : x.code ∈ ids
      · rw [if_pos hcx]
        exact List.mem_cons_of_mem _ (ih hw2 hc)
      · rw [if_neg hcx]
        exact ih hw2 hc

theorem seller_prices_nil (ws : List Watch) : ∀ ids : List String,
    (∀ x ∈ ws, x.code ∉ ids) → Seller.create_prices ws ids = [] := by
  induction ws with
  | nil => intro ids _; rfl
  | cons x rest ih =>
    intro ids h
    simp only [Seller.create_prices]
    rw [if_neg (h x (List.mem_cons_self _ _))]
    exact ih ids (fun y hy => h y (List.mem_cons_of_mem _ hy))

theorem market_prices_mem (w : Watch) (ws : List Watch) : ∀ (ids : List String)
    (ps : List Market.PriceRec), Market.create_prices ws ids = some ps →
    w ∈ ws → w.code ∈ ids →
    ∃ n, str_to_int (Seller.price_conversion w.price) = some n ∧
      (⟨w.code, ⟨.jint n, "RUR"⟩⟩ : Market.PriceRec) ∈ ps := by
  induction ws with
  | nil => intro ids ps h hw; cases hw
  | cons x rest ih =>
    intro ids ps h hw hc
    simp only [Market.create_prices] at h
    rcases List.mem_cons.mp hw with rfl | hw2
    · rw [if_pos hc] at h
      rcases hcv : str_to_int (Seller.price_conversion w.price) with _ | n
      · rw [hcv] at h; exact absurd h (by simp)
      · rw [hcv] at h
        rcases hrec : Market.create_prices rest ids with _ | ps2
        · rw [hrec] at h; exact absurd h (by simp)
        · rw [hrec] at h
          simp only [Option.map_some'] at h
          have hps := Option.some.inj h
          exact ⟨n, rfl, by rw [← hps]; exact List.mem_cons_self _ _⟩
    · by_cases hcx : x.code ∈ ids
      · rw [if_pos hcx] at h
        rcases hcvx : str_to_int (Seller.price_conversion x.price) with _ | m
        · rw [hcvx] at h; exact absurd h (by simp)
        · rw [hcvx] at h
          rcases hrec : Market.create_prices rest ids with _ | ps2
          · rw [hrec] at h; exact absurd h (by simp)
          · rw [hrec] at h
            simp only [Option.map_some'] at h
            have hps := Option.some.inj h
            obtain ⟨n, hn, hmem⟩ := ih ids ps2 hrec hw2 hc
            exact ⟨n, hn, by rw [← hps]; exact List.mem_cons_of_mem _ hmem⟩
      · rw [if_neg hcx] at h
        exact ih ids ps h hw2 hc

theorem divideAux_nil {α : Type} (n : Nat) : ∀ fuel, Seller.divideAux fuel ([] : List α) n = [] := by
  intro fuel
  cases fuel <;> rfl

theorem divideAux_spec {α : Type} (n : Nat) (hn : 0 < n) : ∀ (fuel : Nat) (lst : List α),
    lst.length ≤ fuel →
    (Seller.divideAux fuel lst n).flatten = lst ∧
    (∀ c ∈ Seller.divideAux fuel lst n, c.length ≤ n) ∧
    (∀ c ∈ (Seller.divideAux fuel lst n).dropLast, c.length = n) := by
  intro fuel
  induction fuel with
  | zero =>
    intro lst hlen
    have hnil : lst = [] := List.length_eq_zero.mp (Nat.le_zero.mp hlen)
    subst hnil
    simp [Seller.divideAux]
  | succ fuel ih =>
    intro lst hlen
    cases lst with
    | nil => simp [Seller.divideAux]
    | cons x xs =>
      have hne : n ≠ 0 := Nat.pos_iff_ne_zero.mp hn
      simp only [Seller.divideAux, if_neg hne]
      have hdrop : ((x :: xs).drop n).length ≤ fuel := by
        rw [List.length_drop]
        simp only [List.length_cons] at hlen ⊢
        omega
      obtain ⟨ihj, ihb, ihd⟩ := ih ((x :: xs).drop n) hdrop
      refine ⟨?_, ?_, ?_⟩
      · rw [List.flatten_cons, ihj, List.take_append_drop]
      · intro c hc
        rcases List.mem_cons.mp hc with rfl | hc2
        · rw [List.length_take]
          exact Nat.min_le_left _ _
        · exact ihb c hc2
      · intro c hc
        rcases hrec : Seller.divideAux fuel ((x :: xs).drop n) n with _ | ⟨r1, rrest⟩
        · rw [hrec] at hc
          simp at hc
        · rw [hrec] at hc
          have hdl : (((x :: xs).take n) :: r1 :: rrest).dropLast =
              ((x :: xs).take n) :: (r1 :: rrest).dropLast := rfl
          rw [hdl] at hc
          rcases List.mem_cons.mp hc with rfl | hc2
          · have hdne : (x :: xs).drop n ≠ [] := by
              intro hdnil
              rw [hdnil, divideAux_nil] at hrec
              exact List.noConfusion hrec
            have hlt : n < (x :: xs).length := by
              have hpos : 0 < ((x :: xs).drop n).length := List.length_pos.mpr hdne
              rw [List.length_drop] at hpos
              omega
            rw [List.length_take]
            exact Nat.min_eq_left (Nat.le_of_lt hlt)
          · rw [← hrec] at hc2
            exact ihd c hc2

theorem uploadChunks_events {α : Type} (resp : Nat → Except PyExc Unit) (mk : Nat → Event) :
    ∀ (chunks : List (List α)) (i : Nat) (ev : Event),
    ev ∈ (uploadChunks resp mk i chunks).1 → ∃ k, ev = mk k := by
  intro chunks
  induction chunks with
  | nil =>
    intro i ev he
    simp [uploadChunks] at he
  | cons c cs ih =>
    intro i ev he
    simp only [uploadChunks] at he
    cases hr : resp i with
    | error ex =>
      rw [hr] at he
      simp at he
      exact ⟨c.length, he⟩
    | ok u =>
      rw [hr] at he
      simp at he
      rcases he with rfl | he2
      · exact ⟨c.length, rfl⟩
      · exact ih (i + 1) ev he2

theorem seller_aux_step (p : Seller.SellerPage) (rest : List (Except PyExc Seller.SellerPage))
    (acc : List Seller.SProduct) :
    Seller.get_offer_idsAux (.ok p :: rest) acc =
      if p.total = (acc ++ p.items).length then
        .ok ((acc ++ p.items).map Seller.SProduct.offer_id)
      else Seller.get_offer_idsAux rest (acc ++ p.items) := rfl

theorem market_aux_step (p : Market.MarketPage) (rest : List (Except PyExc Market.MarketPage))
    (acc : List Market.MEntry) :
    Market.get_offer_idsAux (.ok p :: rest) acc =
      if p.nextPageToken = "" then
        .ok ((acc ++ p.offerMappingEntries).map Market.MEntry.shopSku)
      else Market.get_offer_idsAux rest (acc ++ p.offerMappingEntries) := rfl

theorem seller_pages_ok (pages : List Seller.SellerPage) : ∀ (acc : List Seller.SProduct),
    sellerEndAtLast pages acc.length = true →
    Seller.get_offer_idsAux (pages.map Except.ok) acc =
      .ok ((acc ++ (pages.map Seller.SellerPage.items).flatten).map Seller.SProduct.offer_id) := by
  induction pages with
  | nil =>
    intro acc h
    simp [sellerEndAtLast] at h
  | cons p rest ih =>
    intro acc h
    cases rest with
    | nil =>
      simp only [sellerEndAtLast] at h
      have ht : p.total = acc.length + p.items.length := by simpa using h
      rw [List.map_cons, List.map_nil, seller_aux_step,
        if_pos (by rw [List.length_append]; exact ht)]
      simp
    | cons q rest2 =>
      simp only [sellerEndAtLast] at h
      rw [Bool.and_eq_true] at h
      obtain ⟨h1, h2⟩ := h
      have hne : p.total ≠ acc.length + p.items.length := by simpa using h1
      rw [List.map_cons, seller_aux_step,
        if_neg (by rw [List.length_append]; exact hne)]
      rw [ih (acc ++ p.items) (by rw [List.length_append]; exact h2)]
      congr 1
      simp

theorem seller_pages_err (e : PyExc) (more : List (Except PyExc Seller.SellerPage))
    (pages : List Seller.SellerPage) : ∀ (acc : List Seller.SProduct),
    sellerNoSignal pages acc.length = true →
    Seller.get_offer_idsAux (pages.map Except.ok ++ .error e :: more) acc = .err e := by
  induction pages with
  | nil =>
    intro acc _
    simp [Seller.get_offer_idsAux]
  | cons p rest ih =>
    intro acc h
    simp only [sellerNoSignal] at h
    rw [Bool.and_eq_true] at h
    obtain ⟨h1, h2⟩ := h
    have hne : p.total ≠ acc.length + p.items.length := by simpa using h1
    rw [List.map_cons, List.cons_append, seller_aux_step,
      if_neg (by rw [List.length_append]; exact hne)]
    exact ih (acc ++ p.items) (by rw [List.length_append]; exact h2)

theorem market_pages_ok (pages : List Market.MarketPage) : ∀ (acc : List Market.MEntry),
    marketEndAtLast pages = true →
    Market.get_offer_idsAux (pages.map Except.ok) acc =
      .ok ((acc ++ (pages.map Market.MarketPage.offerMappingEntries).flatten).map
        Market.MEntry.shopSku) := by
  induction pages with
  | nil =>
    intro acc h
    simp [marketEndAtLast] at h
  | cons p rest ih =>
    intro acc h
    cases rest with
    | nil =>
      simp only [marketEndAtLast] at h
      have ht : p.nextPageToken = "" := by simpa using h
      rw [List.map_cons, List.map_nil, market_aux_step, if_pos ht]
      simp
    | cons q rest2 =>
      simp only [marketEndAtLast] at h
      rw [Bool.and_eq_true] at h
      obtain ⟨h1, h2⟩ := h
      have hne : p.nextPageToken ≠ "" := by simpa using h1
      rw [List.map_cons, market_aux_step, if_neg hne]
      rw [ih (acc ++ p.offerMappingEntries) h2]
      congr 1
      simp

theorem market_pages_err (e : PyExc) (more : List (Except PyExc Market.MarketPage))
    (pages : List Market.MarketPage) : ∀ (acc : List Market.MEntry),
    marketNoSignal pages = true →
    Market.get_offer_idsAux (pages.map Except.ok ++ .error e :: more) acc = .err e := by
  induction pages with
  | nil =>
    intro acc _
    simp [Market.get_offer_idsAux]
  | cons p rest ih =>
    intro acc h
    simp only [marketNoSignal] at h
    rw [Bool.and_eq_true] at h
    obtain ⟨h1, h2⟩ := h
    have hne : p.nextPageToken ≠ "" := by simpa using h1
    rw [List.map_cons, List.cons_append, market_aux_step, if_neg hne]
    exact ih (acc ++ p.offerMappingEntries) h2

theorem seller_main_no_prices (w : Seller.SellerWorld) (ids : List String) :
    Seller.get_offer_ids w.offerResps = .ok ids → ids.Nodup →
    (Seller.main w).1.countP Event.isPricesUpload = 0 := by
  intro hids hnd
  simp only [Seller.main]
  rw [hids]
  cases hdl : w.downloadResp with
  | error e => simp [Event.isPricesUpload]
  | ok remnants =>
    cases hcs : Seller.create_stocks remnants ids with
    | none =>
      simp only [hcs]
      simp [Event.isPricesUpload]
    | some pr =>
      obtain ⟨stocks, ids2⟩ := pr
      simp only [hcs]
      have hsu0 : (uploadChunks w.stockCallResp (Event.stocksUpload w.client_id) 0
          (Seller.divide stocks 100)).1.countP Event.isPricesUpload = 0 := by
        apply List.countP_eq_zero.mpr
        intro ev hev
        obtain ⟨k, rfl⟩ := uploadChunks_events _ _ _ _ _ hev
        simp [Event.isPricesUpload]
      have hprices : Seller.create_prices remnants ids2 = [] := by
        have hrem : ids2 = unmatchedIds remnants ids :=
          seller_rem_eq remnants ids [] stocks ids2 hnd hcs
        apply seller_prices_nil
        intro x hx hmem
        rw [hrem] at hmem
        have hf := List.of_mem_filter hmem
        have hany : remnants.any (fun w2 => w2.code == x.code) = true :=
          List.any_eq_true.mpr ⟨x, hx, by simp⟩
        rw [hany] at hf
        simp at hf
      cases hr : (uploadChunks w.stockCallResp (Event.stocksUpload w.client_id) 0
          (Seller.divide stocks 100)).2 with
      | error e =>
        simp only [hr]
        simp [List.countP_append, List.countP_cons, hsu0, Event.isPricesUpload]
      | ok u =>
        simp only [hr, hprices]
        have hpu : (uploadChunks w.priceCallResp (Event.pricesUpload w.client_id) 0
            (Seller.divide ([] : List Seller.PriceRec) 900)).1 = [] := rfl
        rw [hpu]
        have hf : Event.isPricesUpload Event.fetchOffers = false := rfl
        have hd : Event.isPricesUpload Event.download = false := rfl
        simp [List.countP_cons, List.countP_append, hsu0, hf, hd]

theorem divideAux_fuel {α : Type} (n : Nat) (hn : 0 < n) : ∀ (fuel1 : Nat) (fuel2 : Nat)
    (lst : List α), lst.length ≤ fuel1 → lst.length ≤ fuel2 →
    Seller.divideAux fuel1 lst n = Seller.divideAux fuel2 lst n := by
  intro fuel1
  induction fuel1 with
  | zero =>
    intro fuel2 lst h1 _
    have hnil : lst = [] := List.length_eq_zero.mp (Nat.le_zero.mp h1)
    subst hnil
    rw [divideAux_nil, divideAux_nil]
  | succ fuel ih =>
    intro fuel2 lst h1 h2
    cases lst with
    | nil => rw [divideAux_nil, divideAux_nil]
    | cons x xs =>
      cases fuel2 with
      | zero => simp at h2
      | succ fuel2 =>
        have hne : n ≠ 0 := Nat.pos_iff_ne_zero.mp hn
        simp only [Seller.divideAux, if_neg hne]
        congr 1
        apply ih
        · rw [List.length_drop]
          simp only [List.length_cons] at h1 ⊢
          omega
        · rw [List.length_drop]
          simp only [List.length_cons] at h2 ⊢
          omega

theorem divide_step {α : Type} (lst : List α) (n : Nat) (hn : 0 < n) (hne : lst ≠ []) :
    Seller.divide lst n = lst.take n :: Seller.divide (lst.drop n) n := by
  obtain ⟨x, xs, rfl⟩ := List.exists_cons_of_ne_nil hne
  have hn0 : n ≠ 0 := Nat.pos_iff_ne_zero.mp hn
  simp only [Seller.divide, List.length_cons, Seller.divideAux, if_neg hn0]
  congr 1
  apply divideAux_fuel n hn
  · rw [List.length_drop]
    simp only [List.length_cons]
    omega
  · exact le_refl _

theorem takeWhile_all {α : Type} (p : α → Bool) (cs : List α) (h : ∀ c ∈ cs, p c = true) :
    cs.takeWhile p = cs := by
  induction cs with
  | nil => rfl
  | cons c cs2 ih =>
    have hc := h c (List.mem_cons_self _ _)
    simp only [List.takeWhile_cons, hc, if_true]
    rw [ih (fun d hd => h d (List.mem_cons_of_mem _ hd))]

/-! ### Claim theorems -/

/-- C4: `price_conversion` maps `"5'990.00 руб."` to `"5990"`, and it is
the identity on every string that consists only of ASCII digits. -/
theorem claim_C4 :
    Seller.price_conversion sampleRubPrice = "5990" ∧
    ∀ s : String, s.data.all Char.isDigit = true → Seller.price_conversion s = s := by
  constructor
  · rfl
  · intro s hall
    cases s with
    | mk cs =>
      simp only [Seller.price_conversion]
      congr 1
      have hdig : ∀ c ∈ cs, c.isDigit = true := by
        simpa [List.all_eq_true] using hall
      have hne : ∀ c ∈ cs, (c != '.') = true := by
        intro c hc
        have hd := hdig c hc
        simp only [bne_iff_ne, ne_eq]
        intro he
        rw [he] at hd
        exact absurd hd (by decide)
      rw [takeWhile_all _ cs hne]
      exact List.filter_eq_self.mpr hdig

/-- C4 witness: `price_conversion` is the identity on the digit-only
string `"5990"`. -/
theorem claim_C4_witness :
    ("5990" : String).data.all Char.isDigit = true ∧
    Seller.price_conversion "5990" = "5990" :=
  ⟨by decide, claim_C4.2 "5990" (by decide)⟩

/-- C5: for every list and chunk size `n > 0`, the chunks produced by
`divide` concatenate back to the list in order, every chunk has at most
`n` elements, every chunk except possibly the last has exactly `n`; and
a 2500-element list with `n = 1000` yields chunk sizes
`[1000, 1000, 500]`. -/
theorem claim_C5 :
    (∀ {α : Type} (lst : List α) (n : Nat), 0 < n →
      (Seller.divide lst n).flatten = lst ∧
      (∀ c ∈ Seller.divide lst n, c.length ≤ n) ∧
      (∀ c ∈ (Seller.divide lst n).dropLast, c.length = n)) ∧
    (Seller.divide (List.replicate 2500 0) 1000).map List.length = [1000, 1000, 500] := by
  constructor
  · intro α lst n hn
    exact divideAux_spec n hn lst.length lst (le_refl _)
  · have h1000 : (0 : Nat) < 1000 := by decide
    rw [divide_step _ _ h1000 (by apply List.ne_nil_of_length_pos; rw [List.length_replicate]; decide),
      List.take_replicate, List.drop_replicate,
      divide_step _ _ h1000 (by apply List.ne_nil_of_length_pos; rw [List.length_replicate]; decide),
      List.take_replicate, List.drop_replicate,
      divide_step _ _ h1000 (by apply List.ne_nil_of_length_pos; rw [List.length_replicate]; decide),
      List.take_replicate, List.drop_replicate]
    have hlast : Seller.divide (List.replicate (2500 - 1000 - 1000 - 1000) (0 : Nat)) 1000 = [] := rfl
    rw [hlast]
    simp only [List.map_cons, List.map_nil, List.length_replicate]
    rfl

/-- C5 witness: splitting `[1, 2, 3, 4, 5]` into chunks of two. -/
theorem claim_C5_witness :
    0 < 2 ∧ (Seller.divide [1, 2, 3, 4, 5] 2).flatten = [1, 2, 3, 4, 5] :=
  ⟨by decide, (claim_C5.1 [1, 2, 3, 4, 5] 2 (by decide)).1⟩

/-- C1 counterexample: with the duplicated known-offer-id list
`["A", "A"]` and no supplier records, `seller.create_stocks` emits a
record for the id "A" twice, not exactly once, refuting the claim for
arbitrary (non-duplicate-free) offer-id lists. -/
theorem claim_C1_cex :
    Seller.create_stocks [] ["A", "A"] = some ([⟨"A", 0⟩, ⟨"A", 0⟩], ["A", "A"]) ∧
    ([(⟨"A", 0⟩ : Seller.StockRec), ⟨"A", 0⟩].countP (fun r => r.offer_id == "A") = 2) ∧
    ((2 : Nat) == 1) = false := by
  refine ⟨by decide, by decide, by decide⟩

/-- C1 (amended: the known offer-id list is duplicate-free, as the ids
of a marketplace catalog are): every known offer id occurs exactly once
as a record of the stock-update list built by `create_stocks` — of
either marketplace — and an id matched by no supplier record's code
gets the zero-count record. -/
theorem claim_C1 :
    (∀ (ws : List Watch) (ids : List String) (st : List Seller.StockRec)
      (rem : List String), ids.Nodup → Seller.create_stocks ws ids = some (st, rem) →
      ∀ id ∈ ids, st.countP (fun r => r.offer_id == id) = 1 ∧
        (ws.all (fun w => w.code != id) = true → (⟨id, 0⟩ : Seller.StockRec) ∈ st)) ∧
    (∀ (ws : List Watch) (ids : List String) (wh date : String)
      (st : List Market.StockRec) (rem : List String), ids.Nodup →
      Market.create_stocks ws ids wh date = some (st, rem) →
      ∀ id ∈ ids, st.countP (fun r => r.sku == id) = 1 ∧
        (ws.all (fun w => w.code != id) = true →
          (⟨id, wh, [⟨0, "FIT", date⟩]⟩ : Market.StockRec) ∈ st)) := by
  have hseller : ∀ (ws : List Watch) (ids : List String) (st : List Seller.StockRec)
      (rem : List String), ids.Nodup → Seller.create_stocks ws ids = some (st, rem) →
      ∀ id ∈ ids, st.countP (fun r => r.offer_id == id) = 1 ∧
        (ws.all (fun w => w.code != id) = true → (⟨id, 0⟩ : Seller.StockRec) ∈ st) := by
    intro ws ids st rem hnd h id hid
    constructor
    · have := seller_count_mem id ws ids [] st rem hnd hid h
      simpa using this
    · intro hall
      have hrem : rem = unmatchedIds ws ids := seller_rem_eq ws ids [] st rem hnd h
      have hanyf : ws.any (fun w2 => w2.code == id) = false := by
        cases hany : ws.any (fun w2 => w2.code == id) with
        | false => rfl
        | true =>
          obtain ⟨x, hx, hxid⟩ := List.any_eq_true.mp hany
          have hxall := (List.all_eq_true.mp hall) x hx
          have hne2 : x.code ≠ id := by simpa using hxall
          exact absurd (by simpa using hxid) hne2
      have hidrem : id ∈ rem := by
        rw [hrem, unmatchedIds]
        exact List.mem_filter.mpr ⟨hid, by simp [hanyf]⟩
      obtain ⟨mid, hmid⟩ := seller_shape ws ids [] st rem h
      rw [hmid]
      refine List.mem_append.mpr (Or.inr ?_)
      exact List.mem_map_of_mem _ hidrem
  refine ⟨hseller, ?_⟩
  intro ws ids wh date st rem hnd h id hid
  rw [market_create_stocks_eq] at h
  cases hs : Seller.create_stocks ws ids with
  | none => rw [hs] at h; exact absurd h (by simp)
  | some pr =>
    obtain ⟨st0, rem0⟩ := pr
    rw [hs] at h
    simp only [Option.map_some'] at h
    have h2 := Option.some.inj h
    have hst : st0.map (mconv wh date) = st := congrArg Prod.fst h2
    have hrem : rem0 = rem := congrArg Prod.snd h2
    obtain ⟨hcnt, hzero⟩ := hseller ws ids st0 rem0 hnd (by rw [hs, hrem]) id hid
    constructor
    · rw [← hst, List.countP_map]
      have hcomp : ((fun r => Market.StockRec.sku r == id) ∘ mconv wh date) =
          (fun r => Seller.StockRec.offer_id r == id) := rfl
      rw [hcomp]
      exact hcnt
    · intro hall
      rw [← hst]
      exact List.mem_map_of_mem _ (hzero hall)

/-- C1 witness: the end-to-end example of the spec, instantiated at the
unmatched id "B2" for both marketplaces. -/
theorem claim_C1_witness :
    (["A1", "B2"] : List String).Nodup ∧
    Seller.create_stocks [⟨"A1", ">10", "100.00"⟩] ["A1", "B2"] =
      some ([⟨"A1", 100⟩, ⟨"B2", 0⟩], ["B2"]) ∧
    ([(⟨"A1", 100⟩ : Seller.StockRec), ⟨"B2", 0⟩].countP (fun r => r.offer_id == "B2") = 1) ∧
    (⟨"B2", 0⟩ : Seller.StockRec) ∈ [(⟨"A1", 100⟩ : Seller.StockRec), ⟨"B2", 0⟩] ∧
    Market.create_stocks [⟨"A1", ">10", "100.00"⟩] ["A1", "B2"] "WH" "D" =
      some ([⟨"A1", "WH", [⟨100, "FIT", "D"⟩]⟩, ⟨"B2", "WH", [⟨0, "FIT", "D"⟩]⟩], ["B2"]) ∧
    ([(⟨"A1", "WH", [⟨100, "FIT", "D"⟩]⟩ : Market.StockRec),
      ⟨"B2", "WH", [⟨0, "FIT", "D"⟩]⟩].countP (fun r => r.sku == "B2") = 1) ∧
    (⟨"B2", "WH", [⟨0, "FIT", "D"⟩]⟩ : Market.StockRec) ∈
      [(⟨"A1", "WH", [⟨100, "FIT", "D"⟩]⟩ : Market.StockRec), ⟨"B2", "WH", [⟨0, "FIT", "D"⟩]⟩] := by
  refine ⟨by decide, by decide, ?_, ?_, by decide, ?_, ?_⟩
  · exact ((claim_C1.1 [⟨"A1", ">10", "100.00"⟩] ["A1", "B2"] [⟨"A1", 100⟩, ⟨"B2", 0⟩] ["B2"]
      (by decide) (by decide)) "B2" (by decide)).1
  · exact ((claim_C1.1 [⟨"A1", ">10", "100.00"⟩] ["A1", "B2"] [⟨"A1", 100⟩, ⟨"B2", 0⟩] ["B2"]
      (by decide) (by decide)) "B2" (by decide)).2 (by decide)
  · exact ((claim_C1.2 [⟨"A1", ">10", "100.00"⟩] ["A1", "B2"] "WH" "D"
      [⟨"A1", "WH", [⟨100, "FIT", "D"⟩]⟩, ⟨"B2", "WH", [⟨0, "FIT", "D"⟩]⟩] ["B2"]
      (by decide) (by decide)) "B2" (by decide)).1
  · exact ((claim_C1.2 [⟨"A1", ">10", "100.00"⟩] ["A1", "B2"] "WH" "D"
      [⟨"A1", "WH", [⟨100, "FIT", "D"⟩]⟩, ⟨"B2", "WH", [⟨0, "FIT", "D"⟩]⟩] ["B2"]
      (by decide) (by decide)) "B2" (by decide)).2 (by decide)

/-- C2 counterexample: two supplier records share the code "A"
(quantities "5" and "7") and "A" is a known offer id; only the first
record is emitted, so no record with stock 7 exists although the second
record's code matches a known offer id and its quantity parses to 7. -/
theorem claim_C2_cex :
    Seller.create_stocks [⟨"A", "5", "0"⟩, ⟨"A", "7", "0"⟩] ["A"] =
      some ([⟨"A", 5⟩], []) ∧
    convert_count "7" = some 7 ∧
    ([(⟨"A", 5⟩ : Seller.StockRec)].any (fun r => r.stock == 7)) = false := by
  refine ⟨by decide, by decide, by decide⟩

/-- C2 (amended: the offer-id list is duplicate-free and the record is
the first supplier record bearing its code): the emitted stock count
for that record's code — in either marketplace's `create_stocks` — is
100 for quantity `">10"`, 0 for `"1"`, and otherwise the integer parse
of the quantity string; the translation table itself is stated in the
last three conjuncts. -/
theorem claim_C2 :
    (∀ (ws1 : List Watch) (w : Watch) (ws2 : List Watch) (ids : List String)
      (st : List Seller.StockRec) (rem : List String), ids.Nodup →
      ws1.all (fun x => x.code != w.code) = true → w.code ∈ ids →
      Seller.create_stocks (ws1 ++ w :: ws2) ids = some (st, rem) →
      ∃ c, convert_count w.quantity = some c ∧ (⟨w.code, c⟩ : Seller.StockRec) ∈ st ∧
        ∀ r ∈ st, r.offer_id = w.code → r = ⟨w.code, c⟩) ∧
    (∀ (ws1 : List Watch) (w : Watch) (ws2 : List Watch) (ids : List String)
      (wh date : String) (st : List Market.StockRec) (rem : List String), ids.Nodup →
      ws1.all (fun x => x.code != w.code) = true → w.code ∈ ids →
      Market.create_stocks (ws1 ++ w :: ws2) ids wh date = some (st, rem) →
      ∃ c, convert_count w.quantity = some c ∧
        (⟨w.code, wh, [⟨c, "FIT", date⟩]⟩ : Market.StockRec) ∈ st ∧
        ∀ r ∈ st, r.sku = w.code → r = ⟨w.code, wh, [⟨c, "FIT", date⟩]⟩) ∧
    convert_count ">10" = some 100 ∧
    convert_count "1" = some 0 ∧
    (∀ q : String, q ≠ ">10" → q ≠ "1" → convert_count q = str_to_int q) := by
  have hseller : ∀ (ws1 : List Watch) (w : Watch) (ws2 : List Watch) (ids : List String)
      (st : List Seller.StockRec) (rem : List String), ids.Nodup →
      ws1.all (fun x => x.code != w.code) = true → w.code ∈ ids →
      Seller.create_stocks (ws1 ++ w :: ws2) ids = some (st, rem) →
      ∃ c, convert_count w.quantity = some c ∧ (⟨w.code, c⟩ : Seller.StockRec) ∈ st ∧
        ∀ r ∈ st, r.offer_id = w.code → r = ⟨w.code, c⟩ := by
    intro ws1 w ws2 ids st rem hnd hall hc h
    obtain ⟨c, hcv, hmem⟩ := seller_first_emit w ws1 ws2 ids [] st rem hnd hall hc h
    refine ⟨c, hcv, hmem, ?_⟩
    have hcount : st.countP (fun r => r.offer_id == w.code) = 1 := by
      have := seller_count_mem w.code (ws1 ++ w :: ws2) ids [] st rem hnd hc h
      simpa using this
    intro r hr hrid
    exact countP_eq_one_unique _ st hcount ⟨w.code, c⟩ r hmem hr (by simp) (by simp [hrid])
  refine ⟨hseller, ?_, rfl, rfl, fun q h1 h2 => by simp [convert_count, h1, h2]⟩
  intro ws1 w ws2 ids wh date st rem hnd hall hc h
  rw [market_create_stocks_eq] at h
  cases hs : Seller.create_stocks (ws1 ++ w :: ws2) ids with
  | none => rw [hs] at h; exact absurd h (by simp)
  | some pr =>
    obtain ⟨st0, rem0⟩ := pr
    rw [hs] at h
    simp only [Option.map_some'] at h
    have h2 := Option.some.inj h
    have hst : st0.map (mconv wh date) = st := congrArg Prod.fst h2
    have hrem : rem0 = rem := congrArg Prod.snd h2
    obtain ⟨c, hcv, hmem, huniq⟩ :=
      hseller ws1 w ws2 ids st0 rem0 hnd hall hc (by rw [hs, hrem])
    refine ⟨c, hcv, ?_, ?_⟩
    · rw [← hst]
      exact List.mem_map_of_mem _ hmem
    · intro r hr hrid
      rw [← hst] at hr
      obtain ⟨r0, hr0, hconv⟩ := List.mem_map.mp hr
      have hr0id : r0.offer_id = w.code := by
        rw [← hrid, ← hconv]
        rfl
      rw [← hconv, huniq r0 hr0 hr0id]
      rfl

/-- C2 witness: a single record with quantity `">10"` matching the only
known offer id is emitted with stock 100. -/
theorem claim_C2_witness :
    (["A1"] : List String).Nodup ∧
    Seller.create_stocks [⟨"A1", ">10", "100.00"⟩] ["A1"] = some ([⟨"A1", 100⟩], []) ∧
    (⟨"A1", 100⟩ : Seller.StockRec) ∈ [(⟨"A1", 100⟩ : Seller.StockRec)] := by
  refine ⟨by decide, by decide, ?_⟩
  obtain ⟨c, hcv, hmem, _⟩ := claim_C2.1 [] ⟨"A1", ">10", "100.00"⟩ [] ["A1"]
    [⟨"A1", 100⟩] [] (by decide) (by decide) (by decide) (by decide)
  have hc : c = 100 := by
    have h100 : some (100 : Int) = some c := by rw [← hcv]; rfl
    exact (Option.some.inj h100).symm
  rw [hc] at hmem
  exact hmem

/-- C3 counterexample: the Ozon price record built for price string
`"5990.00"` carries the JSON *string* `"5990"` in its price field, not
an integer. -/
theorem claim_C3_cex :
    (Seller.create_prices [⟨"A1", "1", "5990.00"⟩] ["A1"]).map Seller.PriceRec.price =
      [JVal.jstr "5990"] ∧
    (JVal.jstr "5990").isInt = false := by
  refine ⟨by decide, by decide⟩

/-- C3 (amended): for every supplier record whose code matches a known
offer id, Yandex `create_prices` emits the integer parse of the
digits-only part of the price string before the first decimal point as
a JSON integer, while Ozon `create_prices` emits that digit string
itself as a JSON string (unparsed). -/
theorem claim_C3 :
    (∀ (ws : List Watch) (ids : List String) (ps : List Market.PriceRec) (w : Watch),
      Market.create_prices ws ids = some ps → w ∈ ws → w.code ∈ ids →
      ∃ n : Int, str_to_int (Seller.price_conversion w.price) = some n ∧
        (⟨w.code, ⟨.jint n, "RUR"⟩⟩ : Market.PriceRec) ∈ ps) ∧
    (∀ (ws : List Watch) (ids : List String) (w : Watch), w ∈ ws → w.code ∈ ids →
      (⟨"UNKNOWN", "RUB", w.code, "0", .jstr (Seller.price_conversion w.price)⟩ :
        Seller.PriceRec) ∈ Seller.create_prices ws ids) :=
  ⟨fun ws ids ps w h hw hc => market_prices_mem w ws ids ps h hw hc,
   fun ws ids w hw hc => seller_prices_mem w ws ids hw hc⟩

/-- C3 witness: price string `"5990.00"`, known id "A1", for both
marketplaces. -/
theorem claim_C3_witness :
    Market.create_prices [⟨"A1", "1", "5990.00"⟩] ["A1"] =
      some [⟨"A1", ⟨.jint 5990, "RUR"⟩⟩] ∧
    str_to_int (Seller.price_conversion "5990.00") = some 5990 ∧
    (⟨"A1", ⟨.jint 5990, "RUR"⟩⟩ : Market.PriceRec) ∈
      [(⟨"A1", ⟨.jint 5990, "RUR"⟩⟩ : Market.PriceRec)] ∧
    (⟨"UNKNOWN", "RUB", "A1", "0", .jstr (Seller.price_conversion "5990.00")⟩ :
      Seller.PriceRec) ∈ Seller.create_prices [⟨"A1", "1", "5990.00"⟩] ["A1"] := by
  refine ⟨by decide, by decide, ?_, ?_⟩
  · obtain ⟨n, hn, hmem⟩ := claim_C3.1 [⟨"A1", "1", "5990.00"⟩] ["A1"]
      [⟨"A1", ⟨.jint 5990, "RUR"⟩⟩] ⟨"A1", "1", "5990.00"⟩ (by decide) (by decide) (by decide)
    have hn2 : n = 5990 := by
      have h5990 : some (5990 : Int) = some n := by rw [← hn]; rfl
      exact (Option.some.inj h5990).symm
    rw [hn2] at hmem
    exact hmem
  · exact claim_C3.2 [⟨"A1", "1", "5990.00"⟩] ["A1"] ⟨"A1", "1", "5990.00"⟩
      (by decide) (by decide)

/-- C9 counterexample: with the duplicated offer-id list `["A", "A"]`
and one matching supplier record, `create_stocks` removes only the
first occurrence, so the mutated list `["A"]` differs from "the
original list with every id matched by some record's code removed"
(which is `[]`). -/
theorem claim_C9_cex :
    (Seller.create_stocks [⟨"A", "5", "0"⟩] ["A", "A"]).map Prod.snd = some ["A"] ∧
    unmatchedIds [⟨"A", "5", "0"⟩] ["A", "A"] = [] ∧
    ((["A"] : List String) == ([] : List String)) = false := by
  refine ⟨by decide, by decide, by decide⟩

/-- C9 (amended: the offer-id list is duplicate-free): after
`create_stocks` of either marketplace returns, the mutated offer-id
list equals the original list with exactly the ids matched by some
supplier record's code removed — i.e. the unmatched ids in their
original order. -/
theorem claim_C9 :
    (∀ (ws : List Watch) (ids : List String) (st : List Seller.StockRec)
      (rem : List String), ids.Nodup → Seller.create_stocks ws ids = some (st, rem) →
      rem = unmatchedIds ws ids) ∧
    (∀ (ws : List Watch) (ids : List String) (wh date : String)
      (st : List Market.StockRec) (rem : List String), ids.Nodup →
      Market.create_stocks ws ids wh date = some (st, rem) →
      rem = unmatchedIds ws ids) := by
  constructor
  · intro ws ids st rem hnd h
    exact seller_rem_eq ws ids [] st rem hnd h
  · intro ws ids wh date st rem hnd h
    rw [market_create_stocks_eq] at h
    cases hs : Seller.create_stocks ws ids with
    | none => rw [hs] at h; exact absurd h (by simp)
    | some pr =>
      obtain ⟨st0, rem0⟩ := pr
      rw [hs] at h
      simp only [Option.map_some'] at h
      have h2 := Option.some.inj h
      have hrem : rem0 = rem := congrArg Prod.snd h2
      rw [← hrem]
      exact seller_rem_eq ws ids [] st0 rem0 hnd hs

/-- C9 witness: one record matching "A1" out of known ids
`["A1", "B2"]` leaves exactly `["B2"]`, for both marketplaces. -/
theorem claim_C9_witness :
    (["A1", "B2"] : List String).Nodup ∧
    Seller.create_stocks [⟨"A1", ">10", "100.00"⟩] ["A1", "B2"] =
      some ([⟨"A1", 100⟩, ⟨"B2", 0⟩], ["B2"]) ∧
    (["B2"] : List String) = unmatchedIds [⟨"A1", ">10", "100.00"⟩] ["A1", "B2"] ∧
    Market.create_stocks [⟨"A1", ">10", "100.00"⟩] ["A1", "B2"] "WH" "D" =
      some ([⟨"A1", "WH", [⟨100, "FIT", "D"⟩]⟩, ⟨"B2", "WH", [⟨0, "FIT", "D"⟩]⟩], ["B2"]) ∧
    (["B2"] : List String) = unmatchedIds [⟨"A1", ">10", "100.00"⟩] ["A1", "B2"] := by
  refine ⟨by decide, by decide, ?_, by decide, ?_⟩
  · exact claim_C9.1 [⟨"A1", ">10", "100.00"⟩] ["A1", "B2"] [⟨"A1", 100⟩, ⟨"B2", 0⟩]
      ["B2"] (by decide) (by decide)
  · exact claim_C9.2 [⟨"A1", ">10", "100.00"⟩] ["A1", "B2"] "WH" "D"
      [⟨"A1", "WH", [⟨100, "FIT", "D"⟩]⟩, ⟨"B2", "WH", [⟨0, "FIT", "D"⟩]⟩] ["B2"]
      (by decide) (by decide)

/-- C10 counterexample: with the duplicated offer-id list `["A", "A"]`,
after `create_stocks` the record's code "A" is still in the mutated
list, and `create_prices` on that mutated list is nonempty. -/
theorem claim_C10_cex :
    (Seller.create_stocks [⟨"A", "5", "7.00"⟩] ["A", "A"]).map Prod.snd = some ["A"] ∧
    (⟨"A", "5", "7.00"⟩ : Watch).code ∈ (["A"] : List String) ∧
    Seller.create_prices [⟨"A", "5", "7.00"⟩] ["A"] =
      [⟨"UNKNOWN", "RUB", "A", "0", .jstr "7"⟩] ∧
    ([(⟨"UNKNOWN", "RUB", "A", "0", .jstr "7"⟩ : Seller.PriceRec)].isEmpty) = false := by
  refine ⟨by decide, by decide, by decide, by decide⟩

/-- C10 (amended: the offer-id list is duplicate-free): after
`seller.create_stocks` completes, no supplier record's code is still in
the mutated id list, so `seller.create_prices` on the mutated list is
empty; consequently `seller.main` issues no price-update call whenever
the ids fetched for it are duplicate-free. -/
theorem claim_C10 :
    (∀ (ws : List Watch) (ids : List String) (st : List Seller.StockRec)
      (rem : List String), ids.Nodup → Seller.create_stocks ws ids = some (st, rem) →
      (∀ x ∈ ws, x.code ∉ rem) ∧ Seller.create_prices ws rem = []) ∧
    (∀ (w : Seller.SellerWorld) (ids : List String),
      Seller.get_offer_ids w.offerResps = .ok ids → ids.Nodup →
      (Seller.main w).1.countP Event.isPricesUpload = 0) := by
  constructor
  · intro ws ids st rem hnd h
    have hrem : rem = unmatchedIds ws ids := seller_rem_eq ws ids [] st rem hnd h
    have hnm : ∀ x ∈ ws, x.code ∉ rem := by
      intro x hx hmem
      rw [hrem] at hmem
      have hf := List.of_mem_filter hmem
      have hany : ws.any (fun w2 => w2.code == x.code) = true :=
        List.any_eq_true.mpr ⟨x, hx, by simp⟩
      rw [hany] at hf
      exact absurd hf (by decide)
    exact ⟨hnm, seller_prices_nil ws rem hnm⟩
  · intro w ids hids hnd
    exact seller_main_no_prices w ids hids hnd

/-- C10 witness: the spec's end-to-end example plus the concrete seller
world `sw10`, in which `main` issues no price-update call. -/
theorem claim_C10_witness :
    (["A1", "B2"] : List String).Nodup ∧
    Seller.create_stocks [⟨"A1", ">10", "100.00"⟩] ["A1", "B2"] =
      some ([⟨"A1", 100⟩, ⟨"B2", 0⟩], ["B2"]) ∧
    (⟨"A1", ">10", "100.00"⟩ : Watch).code ∉ (["B2"] : List String) ∧
    Seller.create_prices [⟨"A1", ">10", "100.00"⟩] ["B2"] = [] ∧
    Seller.get_offer_ids sw10.offerResps = .ok ["A1", "B2"] ∧
    (Seller.main sw10).1.countP Event.isPricesUpload = 0 := by
  refine ⟨by decide, by decide, ?_, ?_, by decide, ?_⟩
  · exact (claim_C10.1 [⟨"A1", ">10", "100.00"⟩] ["A1", "B2"] [⟨"A1", 100⟩, ⟨"B2", 0⟩]
      ["B2"] (by decide) (by decide)).1 ⟨"A1", ">10", "100.00"⟩ (by decide)
  · exact (claim_C10.1 [⟨"A1", ">10", "100.00"⟩] ["A1", "B2"] [⟨"A1", 100⟩, ⟨"B2", 0⟩]
      ["B2"] (by decide) (by decide)).2
  · exact claim_C10.2 sw10 ["A1", "B2"] (by decide) (by decide)

/-- C6: evaluation at the failing configuration.  In `mw6` the supplier
row matches the single known offer id of both campaigns and every HTTP
call succeeds, and the would-be transformed Yandex price list is
nonempty; yet `market.main` — whose `upload_prices(...)` lines call an
`async def` without awaiting it — issues stock uploads only and zero
price-update calls. -/
theorem claim_C6 :
    Market.create_prices [⟨"A1", ">10", "5990.00"⟩] ["A1"] =
      some [⟨"A1", ⟨.jint 5990, "RUR"⟩⟩] ∧
    Market.main mw6 =
      ([.download, .fetchOffers, .stocksUpload "FBS" 1, .fetchOffers,
        .stocksUpload "DBS" 1], .finished) ∧
    (Market.main mw6).1.countP Event.isPricesUpload = 0 := by
  refine ⟨by decide, by decide, by decide⟩

/-- C7 counterexample: in `mw7` the supplier download raises a read
timeout; since `market.main` downloads *before* its `try` block, the
exception escapes `main` uncaught instead of being logged and
swallowed. -/
theorem claim_C7_cex :
    Market.main mw7 = ([.download], .raised .readTimeout) ∧
    (Market.main mw7).2.isRaised = true := by
  refine ⟨by decide, by decide⟩

/-- C7 (amended): every exception raised inside the orchestrators'
`try` blocks is caught by one of the three `except` clauses, logged and
swallowed.  `seller.main` wraps its whole sequence (supplier download
included) in the `try`, so it never propagates an exception;
`market.main` downloads the supplier file before its `try`, so it
propagates an exception exactly when the download raises. -/
theorem claim_C7 :
    (∀ w : Seller.SellerWorld, (Seller.main w).2.isRaised = false) ∧
    (∀ w : Market.MarketWorld, (Market.main w).2.isRaised = exceptFailed w.downloadResp) := by
  constructor
  · intro w
    simp only [Seller.main]
    repeat' split
    all_goals rfl
  · intro w
    simp only [Market.main]
    cases hd : w.downloadResp with
    | error e => rfl
    | ok remnants =>
      repeat' split
      all_goals first
      | rfl
      | simp_all

/-- C8: each marketplace's `get_offer_ids` terminates with the
flattened offer ids of all served pages when the server signals
end-of-list at the last page (Ozon: accumulated item count equals the
reported total; Yandex: empty next-page token) and at no earlier page;
and a page-request exception raised before any end signal propagates to
the caller. -/
theorem claim_C8 :
    (∀ pages : List Seller.SellerPage, sellerEndAtLast pages 0 = true →
      Seller.get_offer_ids (pages.map Except.ok) =
        .ok ((pages.map Seller.SellerPage.items).flatten.map Seller.SProduct.offer_id)) ∧
    (∀ (pages : List Seller.SellerPage) (e : PyExc)
      (more : List (Except PyExc Seller.SellerPage)), sellerNoSignal pages 0 = true →
      Seller.get_offer_ids (pages.map Except.ok ++ .error e :: more) = .err e) ∧
    (∀ pages : List Market.MarketPage, marketEndAtLast pages = true →
      Market.get_offer_ids (pages.map Except.ok) =
        .ok ((pages.map Market.MarketPage.offerMappingEntries).flatten.map
          Market.MEntry.shopSku)) ∧
    (∀ (pages : List Market.MarketPage) (e : PyExc)
      (more : List (Except PyExc Market.MarketPage)), marketNoSignal pages = true →
      Market.get_offer_ids (pages.map Except.ok ++ .error e :: more) = .err e) := by
  refine ⟨?_, ?_, ?_, ?_⟩
  · intro pages h
    have hres := seller_pages_ok pages [] h
    simpa [Seller.get_offer_ids] using hres
  · intro pages e more h
    exact seller_pages_err e more pages [] h
  · intro pages h
    have hres := market_pages_ok pages [] h
    simpa [Market.get_offer_ids] using hres
  · intro pages e more h
    exact market_pages_err e more pages [] h

/-- C8 witness: a one-page listing ending with the respective signal,
and an immediate request exception, for both marketplaces. -/
theorem claim_C8_witness :
    sellerEndAtLast [⟨[⟨"A1"⟩], 1, "x"⟩] 0 = true ∧
    Seller.get_offer_ids [Except.ok ⟨[⟨"A1"⟩], 1, "x"⟩] = .ok ["A1"] ∧
    sellerNoSignal [] 0 = true ∧
    Seller.get_offer_ids [Except.error .readTimeout] = .err .readTimeout ∧
    marketEndAtLast [⟨[⟨"B2"⟩], ""⟩] = true ∧
    Market.get_offer_ids [Except.ok ⟨[⟨"B2"⟩], ""⟩] = .ok ["B2"] ∧
    marketNoSignal [] = true ∧
    Market.get_offer_ids [Except.error (.connectionError "down")] =
      .err (.connectionError "down") := by
  refine ⟨by decide, ?_, by decide, ?_, by decide, ?_, by decide, ?_⟩
  · exact claim_C8.1 [⟨[⟨"A1"⟩], 1, "x"⟩] (by decide)
  · exact claim_C8.2.1 [] .readTimeout [] (by decide)
  · exact claim_C8.2.2.1 [⟨[⟨"B2"⟩], ""⟩] (by decide)
  · exact claim_C8.2.2.2 [] (.connectionError "down") [] (by decide)
